import Mathlib

/-!
Shallow embedding of the feature-distance and partition-scan core of
`node-identity-face-ng` (src/face.js and the worker in src/unnamed/part_000).

JavaScript numbers are modelled as exact rationals extended with the IEEE
special values `Infinity`, `-Infinity` and `NaN` (overflow and rounding are
abstracted away; JavaScript's signed zero collapses to the single rational 0,
which matches every reachable computation here since the only divisions are
by nonnegative quantities).  `Math.sqrt` is kept abstract as a parameter
`s : ℚ → ℚ` applied to nonnegative arguments only.
-/

namespace FaceNg

/-- A JavaScript number: a finite value, `Infinity`, `-Infinity` or `NaN`. -/
inductive JsNum where
  | num (q : ℚ)
  | inf
  | neginf
  | nan
  deriving DecidableEq, Repr

/-- JavaScript `+` on numbers. -/
def jsAdd : JsNum → JsNum → JsNum
  | .num a, .num b => .num (a + b)
  | .num _, .inf => .inf
  | .inf, .num _ => .inf
  | .inf, .inf => .inf
  | .num _, .neginf => .neginf
  | .neginf, .num _ => .neginf
  | .neginf, .neginf => .neginf
  | _, _ => .nan

/-- JavaScript `-` on numbers. -/
def jsSub : JsNum → JsNum → JsNum
  | .num a, .num b => .num (a - b)
  | .num _, .inf => .neginf
  | .inf, .num _ => .inf
  | .neginf, .num _ => .neginf
  | .num _, .neginf => .inf
  | .inf, .neginf => .inf
  | .neginf, .inf => .neginf
  | _, _ => .nan

/-- JavaScript `*` on numbers (`0 * Infinity` is `NaN`). -/
def jsMul : JsNum → JsNum → JsNum
  | .num a, .num b => .num (a * b)
  | .num a, .inf => if 0 < a then .inf else if a < 0 then .neginf else .nan
  | .inf, .num b => if 0 < b then .inf else if b < 0 then .neginf else .nan
  | .num a, .neginf => if 0 < a then .neginf else if a < 0 then .inf else .nan
  | .neginf, .num b => if 0 < b then .neginf else if b < 0 then .inf else .nan
  | .inf, .inf => .inf
  | .neginf, .neginf => .inf
  | .inf, .neginf => .neginf
  | .neginf, .inf => .neginf
  | _, _ => .nan

/-- JavaScript `/` on numbers; division of a nonzero finite value by (positive)
zero yields a signed infinity, `0 / 0` yields `NaN`. -/
def jsDiv : JsNum → JsNum → JsNum
  | .num a, .num b =>
      if b = 0 then (if a = 0 then .nan else if 0 < a then .inf else .neginf)
      else .num (a / b)
  | .num _, .inf => .num 0
  | .num _, .neginf => .num 0
  | .inf, .num b => if b < 0 then .neginf else .inf
  | .neginf, .num b => if b < 0 then .inf else .neginf
  | _, _ => .nan

/-- JavaScript `Math.abs`. -/
def jsAbs : JsNum → JsNum
  | .num a => .num |a|
  | .inf => .inf
  | .neginf => .inf
  | .nan => .nan

/-- JavaScript `Math.sqrt`, with the square-root routine on nonnegative finite
values kept abstract as `s`. -/
def jsSqrt (s : ℚ → ℚ) : JsNum → JsNum
  | .num a => if a < 0 then .nan else .num (s a)
  | .inf => .inf
  | _ => .nan

/-- JavaScript `<=` on numbers (`false` whenever `NaN` is involved). -/
def jsLe : JsNum → JsNum → Bool
  | .num a, .num b => decide (a ≤ b)
  | .num _, .inf => true
  | .neginf, .num _ => true
  | .neginf, .inf => true
  | .neginf, .neginf => true
  | .inf, .inf => true
  | _, _ => false

/-- JavaScript `<` on numbers (`false` whenever `NaN` is involved). -/
def jsLt : JsNum → JsNum → Bool
  | .num a, .num b => decide (a < b)
  | .num _, .inf => true
  | .neginf, .num _ => true
  | .neginf, .inf => true
  | _, _ => false

/-- A `FaceFeatures` object: its own enumerable properties in insertion order,
each a group name mapped to the flat numeric array stored by `add`.  Keys of a
JavaScript object are distinct. -/
abbrev FeatureVec := List (String × List ℚ)

/-- JavaScript property read `obj[key]` on the object `b`: the value at the
key, or `undefined` (`none`) when the key is absent. -/
def lookupKey : FeatureVec → String → Option (List ℚ)
  | [], _ => none
  | g :: rest, k => if g.1 = k then some g.2 else lookupKey rest k

/-- The runtime faults `distance` can raise: the explicit
`Error('Unable to compare between different face features!')` thrown on a key
count mismatch, and the TypeError from indexing into an `undefined` group. -/
inductive JsErr where
  | shapeMismatch
  | typeError
  deriving DecidableEq, Repr

/-- Outcome of a call to `FaceFeatures.distance`: the `undefined` return when
the argument is falsy, a thrown error, or a returned number. -/
inductive DistResult where
  | undef
  | thrown (e : JsErr)
  | value (v : JsNum)
  deriving DecidableEq, Repr

/-- Element `k` of `this[feature]` minus element `k` of `features[feature]`
(`p.x - p.y` in the source); reading past the end of `bv` gives `undefined`,
and `number - undefined` is `NaN`. -/
def diffAt (bv : List ℚ) (k : ℕ) (v : ℚ) : JsNum :=
  match bv[k]? with
  | some y => .num (v - y)
  | none => .nan

/-- The fused `map`/`reduce` of `distance`: walk `this[feature]` with its
index `k`, square each difference against `features[feature][k]` and sum,
starting from `0`. -/
def sumSqAux (bv : List ℚ) : ℕ → List ℚ → JsNum → JsNum
  | _, [], acc => acc
  | k, v :: rest, acc => sumSqAux bv (k + 1) rest (jsAdd acc (jsMul (diffAt bv k v) (diffAt bv k v)))

/-- `pairs.map(p => p.x - p.y).reduce((a, b) => a + (b * b), 0)` for one group. -/
def sumSquares (av bv : List ℚ) : JsNum := sumSqAux bv 0 av (.num 0)

/-- One iteration of `distance`'s group loop: `this[feature]` is `av` and
`features[feature]` is `bv?`.  When the key is absent from `features`, the map
callback indexes into `undefined` and throws a TypeError — unless `av` is
empty, in which case the callback never runs and the group contributes
`Math.sqrt(0)`. -/
def groupDist (s : ℚ → ℚ) (av : List ℚ) (bv? : Option (List ℚ)) : Except JsErr JsNum :=
  match bv?, av with
  | none, [] => .ok (jsSqrt s (.num 0))
  | none, _ :: _ => .error .typeError
  | some bv, _ => .ok (jsSqrt s (sumSquares av bv))

/-- The `values` object of `distance`: one per-group value for each key of
`this` in insertion order, aborting at the first thrown error. -/
def distValues (s : ℚ → ℚ) (b : FeatureVec) : FeatureVec → Except JsErr (List JsNum)
  | [] => .ok []
  | g :: rest =>
      match groupDist s g.2 (lookupKey b g.1) with
      | .error e => .error e
      | .ok v =>
          match distValues s b rest with
          | .error e => .error e
          | .ok vs => .ok (v :: vs)

/-- `FaceFeatures.distance(features)` (src/face.js lines 201-219): `undefined`
when `features` is falsy; a thrown shape-mismatch error when the two key
counts differ; otherwise the per-group values summed and divided by the group
count. -/
def distance (s : ℚ → ℚ) (a : FeatureVec) (b? : Option FeatureVec) : DistResult :=
  match b? with
  | none => .undef
  | some b =>
      if a.length = b.length then
        match distValues s b a with
        | .error e => .thrown e
        | .ok vals => .value (jsDiv (vals.foldl jsAdd (.num 0)) (.num (vals.length : ℚ)))
      else .thrown .shapeMismatch

/-- One iteration of `find`'s loop: keep the candidate when its distance is a
number within `confidence` and strictly below the running minimum (or no
minimum is held yet). -/
def findStep (c : ℚ) (st : Option (ℕ × JsNum)) (idx : ℕ) (d : JsNum) : Option (ℕ × JsNum) :=
  if jsLe d (.num c) && (match st with | none => true | some p => jsLt d p.2) then
    some (idx, d)
  else st

/-- The loop of `FaceFeatures.find` over the remaining candidates, carrying
the position of the next candidate and the running `(index, conf)` pair. -/
def findLoop (s : ℚ → ℚ) (a : FeatureVec) (c : ℚ) :
    List FeatureVec → ℕ → Option (ℕ × JsNum) → Except JsErr (Option (ℕ × JsNum))
  | [], _, st => .ok st
  | f :: rest, idx, st =>
      match distance s a (some f) with
      | .thrown e => .error e
      | .undef => findLoop s a c rest (idx + 1) st
      | .value d => findLoop s a c rest (idx + 1) (findStep c st idx d)

/-- `FaceFeatures.find(featuresList, confidence)` (src/face.js lines 221-231):
returns the `[index, conf]` pair, `none` standing for the `undefined` pair
when no candidate passed the threshold. -/
def find (s : ℚ → ℚ) (a : FeatureVec) (fl : List FeatureVec) (c : ℚ) :
    Except JsErr (Option (ℕ × JsNum)) :=
  findLoop s a c fl 0 none

/-- `FaceLandmark.compare(face)` (src/face.js lines 171-175) at the feature
level: `undefined` when `face` is falsy, otherwise the distance between the
two feature vectors. -/
def compareFace (s : ℚ → ℚ) (self : FeatureVec) (face : Option FeatureVec) : Option DistResult :=
  match face with
  | none => none
  | some f => some (distance s self (some f))

/-- A stand-in interpretation of `Math.sqrt` used for concrete evaluations;
it agrees with the real square root at `0`, the only point where concrete
claims below evaluate it. -/
def sqrtId : ℚ → ℚ := fun q => q

/-- Spec-side per-group distance, written from the spec's words: the Euclidean
norm `sqrt(Σ (a_i − b_i)^2)` over the group's flattened slice. -/
def specGroupDist (s : ℚ → ℚ) (av bv : List ℚ) : ℚ :=
  s (((av.zip bv).map fun p => (p.1 - p.2) * (p.1 - p.2)).sum)

/-- Spec-side overall distance, written from the spec's words: the arithmetic
mean over the groups of the per-group Euclidean norms. -/
def specDistance (s : ℚ → ℚ) (a b : FeatureVec) : ℚ :=
  (a.map fun g => specGroupDist s g.2 ((lookupKey b g.1).getD [])).sum / a.length

lemma sumSqAux_num (bv : List ℚ) :
    ∀ (av : List ℚ) (k : ℕ) (acc : ℚ), k + av.length ≤ bv.length →
      sumSqAux bv k av (.num acc) =
        .num (acc + ((av.zip (bv.drop k)).map fun p => (p.1 - p.2) * (p.1 - p.2)).sum) := by
  intro av
  induction av with
  | nil => intro k acc _; simp [sumSqAux]
  | cons v rest ih =>
      intro k acc h
      have hk : k < bv.length := by simp at h; omega
      have hbv : bv.drop k = bv[k] :: bv.drop (k + 1) := List.drop_eq_getElem_cons hk
      have hd : diffAt bv k v = .num (v - bv[k]) := by
        simp [diffAt, List.getElem?_eq_getElem hk]
      rw [sumSqAux, hd]
      have h2 : k + 1 + rest.length ≤ bv.length := by simp at h ⊢; omega
      rw [show jsAdd (.num acc) (jsMul (.num (v - bv[k])) (.num (v - bv[k]))) =
            JsNum.num (acc + (v - bv[k]) * (v - bv[k])) from rfl,
        ih (k + 1) _ h2, hbv, List.zip_cons_cons, List.map_cons, List.sum_cons]
      congr 1
      ring

lemma sum_squares_nonneg (l : List (ℚ × ℚ)) :
    0 ≤ (l.map fun p => (p.1 - p.2) * (p.1 - p.2)).sum := by
  apply List.sum_nonneg
  intro x hx
  simp only [List.mem_map] at hx
  obtain ⟨p, _, rfl⟩ := hx
  exact mul_self_nonneg _

lemma groupDist_ok (s : ℚ → ℚ) (av bv : List ℚ) (h : av.length ≤ bv.length) :
    groupDist s av (some bv) = .ok (.num (specGroupDist s av bv)) := by
  have hs := sumSqAux_num bv av 0 0 (by omega)
  rw [List.drop_zero, zero_add] at hs
  have hg : groupDist s av (some bv) = .ok (jsSqrt s (sumSquares av bv)) := by
    cases av <;> rfl
  rw [hg, sumSquares, hs]
  simp only [jsSqrt, if_neg (not_lt.2 (sum_squares_nonneg (av.zip bv)))]
  rfl

lemma groupDist_error (s : ℚ → ℚ) (av : List ℚ) (bv? : Option (List ℚ)) (e : JsErr)
    (h : groupDist s av bv? = .error e) : e = .typeError := by
  rcases bv? with _ | bv
  · rcases av with _ | ⟨v, vs⟩
    · simp [groupDist] at h
    · simp [groupDist] at h
      exact h.symm
  · rcases av with _ | ⟨v, vs⟩ <;> simp [groupDist] at h

lemma distValues_ok (s : ℚ → ℚ) (b : FeatureVec) :
    ∀ a : FeatureVec,
      (∀ g ∈ a, ∃ bv, lookupKey b g.1 = some bv ∧ bv.length = g.2.length) →
      distValues s b a =
        .ok (a.map fun g => .num (specGroupDist s g.2 ((lookupKey b g.1).getD []))) := by
  intro a
  induction a with
  | nil => intro _; rfl
  | cons g rest ih =>
      intro h
      obtain ⟨bv, hbv, hlen⟩ := h g (List.mem_cons_self g rest)
      rw [distValues, hbv, groupDist_ok s g.2 bv (le_of_eq hlen.symm),
        ih fun g hg => h g (List.mem_cons_of_mem _ hg)]
      simp [hbv]

lemma distValues_error_typeError (s : ℚ → ℚ) (b : FeatureVec) :
    ∀ (a : FeatureVec) (e : JsErr), distValues s b a = .error e → e = .typeError := by
  intro a
  induction a with
  | nil => intro e h; simp [distValues] at h
  | cons g rest ih =>
      intro e h
      rw [distValues] at h
      rcases hg : groupDist s g.2 (lookupKey b g.1) with e2 | v
      · rw [hg] at h
        have he : e2 = e := by simpa using h
        rw [← he]
        exact groupDist_error s g.2 _ e2 hg
      · rw [hg] at h
        rcases hr : distValues s b rest with e3 | vs
        · rw [hr] at h
          have he : e3 = e := by simpa using h
          rw [← he]
          exact ih e3 hr
        · rw [hr] at h
          simp at h

lemma foldl_jsAdd_num (l : List ℚ) :
    ∀ acc : ℚ, (l.map JsNum.num).foldl jsAdd (.num acc) = .num (acc + l.sum) := by
  induction l with
  | nil => intro acc; simp
  | cons v rest ih =>
      intro acc
      simp only [List.map_cons, List.foldl_cons, List.sum_cons]
      rw [show jsAdd (.num acc) (.num v) = JsNum.num (acc + v) from rfl, ih]
      ring_nf

/-- C3: with identical group keys of identical lengths (and at least one
group), `distance` returns exactly the arithmetic mean over the groups of the
Euclidean norms of the per-coordinate differences, as the spec states. -/
theorem distance_is_mean_of_group_norms (s : ℚ → ℚ) (a b : FeatureVec)
    (hne : a ≠ [])
    (hlen : a.length = b.length)
    (hkeys : ∀ g ∈ a, ∃ bv, lookupKey b g.1 = some bv ∧ bv.length = g.2.length) :
    distance s a (some b) = .value (.num (specDistance s a b)) := by
  simp only [distance, if_pos hlen, distValues_ok s b a hkeys]
  have hm : (a.map fun g => JsNum.num (specGroupDist s g.2 ((lookupKey b g.1).getD []))) =
      (a.map fun g => specGroupDist s g.2 ((lookupKey b g.1).getD [])).map JsNum.num := by
    simp
  rw [hm, foldl_jsAdd_num, zero_add]
  have hn : ((a.map fun g => specGroupDist s g.2 ((lookupKey b g.1).getD [])).map JsNum.num).length =
      a.length := by simp
  rw [hn]
  have hq : (a.length : ℚ) ≠ 0 := by
    simp only [ne_eq, Nat.cast_eq_zero, List.length_eq_zero]
    exact hne
  simp [jsDiv, hq, specDistance]

/-- C3 witness: a concrete identical pair of one-group feature vectors. -/
theorem distance_is_mean_of_group_norms_witness :
    distance sqrtId [("g", [1, 2])] (some [("g", [1, 2])]) =
      .value (.num (specDistance sqrtId [("g", [1, 2])] [("g", [1, 2])])) :=
  distance_is_mean_of_group_norms sqrtId [("g", [1, 2])] [("g", [1, 2])]
    (by decide) (by decide) (by decide)

/-- C1 counterexample: two feature vectors with the same single group key but
per-group lengths 1 and 2; `distance` returns the number `0` instead of
failing with a shape-mismatch error. -/
theorem distance_length_mismatch_returns_number :
    distance sqrtId [("g", [0])] (some [("g", [0, 1])]) = .value (.num 0) := by
  norm_num [distance, distValues, groupDist, sumSquares, sumSqAux, diffAt, lookupKey,
    jsSqrt, jsAdd, jsMul, jsDiv, sqrtId]

/-- C1 (amended): `distance` throws the shape-mismatch error exactly when the
two feature vectors have different numbers of group keys; any mismatch with
equal key counts (different names or different per-group lengths) is not
reported as a shape mismatch. -/
theorem distance_shapeMismatch_iff (s : ℚ → ℚ) (a b : FeatureVec) :
    distance s a (some b) = .thrown .shapeMismatch ↔ a.length ≠ b.length := by
  rw [distance]
  by_cases hlen : a.length = b.length
  · rw [if_pos hlen]
    rcases hv : distValues s b a with e | vals
    · have : e = .typeError := distValues_error_typeError s b a e hv
      subst this
      simp [hlen]
    · simp [hlen]
  · rw [if_neg hlen]
    simp [hlen]

lemma jsLe_trans_lt (x y z : JsNum) (h1 : jsLe x y = true) (h2 : jsLt y z = true) :
    jsLe x z = true := by
  cases x <;> cases y <;> cases z <;>
    simp_all [jsLe, jsLt] <;> linarith

lemma jsLt_of_le_of_lt (x y z : JsNum) (h1 : jsLe x y = true) (h2 : jsLt y z = true) :
    jsLt x z = true := by
  cases x <;> cases y <;> cases z <;>
    simp_all [jsLe, jsLt] <;> linarith

lemma jsLe_false_of_lt (x y : JsNum) (h : jsLt x y = true) : jsLe y x = false := by
  cases x <;> cases y <;> simp_all [jsLe, jsLt]

/-- The distance `find` computes for the candidate at position `j`, when that
position exists and the call returns a number. -/
def distAt (s : ℚ → ℚ) (a : FeatureVec) (fl : List FeatureVec) (j : ℕ) : Option JsNum :=
  match fl[j]? with
  | none => none
  | some f =>
      match distance s a (some f) with
      | .value d => some d
      | _ => none

lemma distAt_eq_some (s : ℚ → ℚ) (a : FeatureVec) (fl : List FeatureVec) (j : ℕ) (d : JsNum) :
    distAt s a fl j = some d ↔
      ∃ f, fl[j]? = some f ∧ distance s a (some f) = .value d := by
  constructor
  · intro h
    rcases hj : fl[j]? with _ | f
    · simp [distAt, hj] at h
    · simp only [distAt, hj] at h
      rcases hd : distance s a (some f) with _ | e | v <;> simp only [hd] at h
      · exact absurd h (by simp)
      · exact absurd h (by simp)
      · have hv : v = d := by simpa using h
        exact ⟨f, rfl, hv ▸ hd⟩
  · rintro ⟨f, hj, hd⟩
    simp only [distAt, hj, hd]

/-- Loop invariant of `find`: after the candidates at positions below `n` have
been examined, the running state is `none` exactly as long as none of them
passed the threshold, and otherwise holds the earliest position achieving the
strictly running minimum. -/
def FindInv (s : ℚ → ℚ) (a : FeatureVec) (c : ℚ) (fl : List FeatureVec) (n : ℕ) :
    Option (ℕ × JsNum) → Prop
  | none => ∀ j, j < n → ∀ dj, distAt s a fl j = some dj → jsLe dj (.num c) = false
  | some (i, dcur) =>
      i < n ∧ distAt s a fl i = some dcur ∧ jsLe dcur (.num c) = true ∧
      (∀ j, j < i → ∀ dj, distAt s a fl j = some dj → jsLe dj (.num c) = true →
        jsLe dj dcur = false) ∧
      (∀ j, i < j → j < n → ∀ dj, distAt s a fl j = some dj → jsLe dj (.num c) = true →
        jsLt dj dcur = false)

lemma FindInv_extend_none (s : ℚ → ℚ) (a : FeatureVec) (c : ℚ) (fl : List FeatureVec)
    (n : ℕ) (st : Option (ℕ × JsNum)) (hnone : distAt s a fl n = none)
    (h : FindInv s a c fl n st) : FindInv s a c fl (n + 1) st := by
  rcases st with _ | ⟨i, dcur⟩
  · intro j hj dj hdj
    rcases Nat.lt_or_ge j n with hlt | hge
    · exact h j hlt dj hdj
    · have : j = n := by omega
      rw [this, hnone] at hdj
      simp at hdj
  · obtain ⟨hi, hdist, hle, hfirst, hlater⟩ := h
    refine ⟨by omega, hdist, hle, hfirst, ?_⟩
    intro j hij hj dj hdj hq
    rcases Nat.lt_or_ge j n with hlt | hge
    · exact hlater j hij hlt dj hdj hq
    · have : j = n := by omega
      rw [this, hnone] at hdj
      simp at hdj

lemma FindInv_step (s : ℚ → ℚ) (a : FeatureVec) (c : ℚ) (fl : List FeatureVec)
    (n : ℕ) (st : Option (ℕ × JsNum)) (d : JsNum) (hd : distAt s a fl n = some d)
    (h : FindInv s a c fl n st) : FindInv s a c fl (n + 1) (findStep c st n d) := by
  rcases st with _ | ⟨i, dcur⟩
  · rcases hle : jsLe d (.num c) with _ | _
    · have hstep : findStep c none n d = none := by
        simp [findStep, hle]
      rw [hstep]
      intro j hj dj hdj
      rcases Nat.lt_or_ge j n with hlt | hge
      · exact h j hlt dj hdj
      · have hjn : j = n := by omega
        subst hjn
        rw [hd] at hdj
        have hdd : d = dj := by simpa using hdj
        rw [← hdd]
        exact hle
    · have hstep : findStep c none n d = some (n, d) := by
        simp [findStep, hle]
      rw [hstep]
      refine ⟨by omega, hd, hle, ?_, ?_⟩
      · intro j hj dj hdj hq
        rw [h j hj dj hdj] at hq
        exact absurd hq (by simp)
      · exact fun j hij hj => absurd hij (by omega)
  · obtain ⟨hi, hdist, hcle, hfirst, hlater⟩ := h
    rcases hguard : jsLe d (.num c) && jsLt d dcur with _ | _
    · have hstay : findStep c (some (i, dcur)) n d = some (i, dcur) := by
        simp [findStep, hguard]
      rw [hstay]
      refine ⟨by omega, hdist, hcle, hfirst, ?_⟩
      intro j hij hj dj hdj hq
      rcases Nat.lt_or_ge j n with hlt | hge
      · exact hlater j hij hlt dj hdj hq
      · have hjn : j = n := by omega
        subst hjn
        rw [hd] at hdj
        have hdd : d = dj := by simpa using hdj
        rw [← hdd] at hq ⊢
        rcases hx : jsLt d dcur with _ | _
        · rfl
        · rw [hq, hx] at hguard
          simp at hguard
    · have hguard2 : jsLe d (.num c) = true ∧ jsLt d dcur = true := by
        simpa using hguard
      obtain ⟨hle2, hlt2⟩ := hguard2
      have hnew : findStep c (some (i, dcur)) n d = some (n, d) := by
        simp [findStep, hguard]
      rw [hnew]
      refine ⟨by omega, hd, hle2, ?_, ?_⟩
      · intro j hj dj hdj hq
        rcases Nat.lt_or_ge j i with hji | hji
        · rcases hx : jsLe dj d with _ | _
          · rfl
          · exfalso
            have h2 : jsLe dj dcur = true := jsLe_trans_lt dj d dcur hx hlt2
            rw [hfirst j hji dj hdj hq] at h2
            simp at h2
        · rcases Nat.eq_or_lt_of_le hji with hji2 | hji2
          · have hdjc : dj = dcur := by
              rw [← hji2, hdist] at hdj
              simpa using hdj.symm
            subst hdjc
            exact jsLe_false_of_lt d dj hlt2
          · have hnotlt : jsLt dj dcur = false := hlater j hji2 (by omega) dj hdj hq
            rcases hx : jsLe dj d with _ | _
            · rfl
            · exfalso
              have h3 := jsLt_of_le_of_lt dj d dcur hx hlt2
              rw [hnotlt] at h3
              simp at h3
      · exact fun j hij hj => absurd hij (by omega)

lemma findLoop_inv (s : ℚ → ℚ) (a : FeatureVec) (c : ℚ) (fl : List FeatureVec) :
    ∀ (l : List FeatureVec) (n : ℕ) (st res : Option (ℕ × JsNum)),
      fl.drop n = l → FindInv s a c fl n st →
      findLoop s a c l n st = .ok res → FindInv s a c fl fl.length res := by
  intro l
  induction l with
  | nil =>
      intro n st res hdrop hinv h
      have hres : st = res := by
        rw [findLoop] at h
        exact Option.some_injective _ (by simpa using h)
      subst hres
      have hn : fl.length ≤ n := by
        have := congrArg List.length hdrop
        simp at this
        omega
      rcases st with _ | ⟨i, dcur⟩
      · intro j hj dj hdj
        exact hinv j (by omega) dj hdj
      · obtain ⟨hi, hdist, hcle, hfirst, hlater⟩ := hinv
        have hirange : i < fl.length := by
          rcases (distAt_eq_some s a fl i dcur).1 hdist with ⟨f, hf, _⟩
          exact (List.getElem?_eq_some.1 hf).1
        exact ⟨hirange, hdist, hcle, hfirst, fun j hij hj => hlater j hij (by omega)⟩
  | cons f rest ih =>
      intro n st res hdrop hinv h
      have hlen : n < fl.length := by
        have := congrArg List.length hdrop
        simp at this
        omega
      have hfn : fl[n]? = some f := by
        have h0 : (fl.drop n)[0]? = some f := by rw [hdrop]; simp
        rw [List.getElem?_drop] at h0
        simpa using h0
      have hdrop1 : fl.drop (n + 1) = rest := by
        have h1 : fl.drop (n + 1) = (fl.drop n).drop 1 := by
          rw [List.drop_drop]
        rw [h1, hdrop]
        simp
      simp only [findLoop] at h
      rcases hdist : distance s a (some f) with _ | e | d
      · rw [hdist] at h
        have hnone : distAt s a fl n = none := by
          simp only [distAt, hfn, hdist]
        exact ih (n + 1) st res hdrop1
          (FindInv_extend_none s a c fl n st hnone hinv) (by simpa using h)
      · rw [hdist] at h
        simp at h
      · rw [hdist] at h
        have hsome : distAt s a fl n = some d := by
          simp only [distAt, hfn, hdist]
        exact ih (n + 1) (findStep c st n d) res hdrop1
          (FindInv_step s a c fl n st d hsome hinv) (by simpa using h)

/-- C4: `find` (the best-match search) returns no candidate when no candidate
distance is within the threshold, and a returned candidate's distance is the
distance of that list position and never exceeds the threshold. -/
theorem find_respects_threshold (s : ℚ → ℚ) (a : FeatureVec) (fl : List FeatureVec) (c : ℚ)
    (res : Option (ℕ × JsNum)) (h : find s a fl c = .ok res) :
    ((∀ (j : ℕ) (f : FeatureVec) (dj : JsNum), fl[j]? = some f →
        distance s a (some f) = .value dj → jsLe dj (.num c) = false) → res = none)
    ∧ (∀ (i : ℕ) (d : JsNum), res = some (i, d) → jsLe d (.num c) = true ∧
        ∃ f, fl[i]? = some f ∧ distance s a (some f) = .value d) := by
  have hinv : FindInv s a c fl fl.length res :=
    findLoop_inv s a c fl fl 0 none res rfl
      (fun j hj => absurd hj (Nat.not_lt_zero j)) h
  constructor
  · intro hnoq
    rcases res with _ | ⟨i, d⟩
    · rfl
    · exfalso
      obtain ⟨_, hdist, hcle, _, _⟩ := hinv
      rcases (distAt_eq_some s a fl i d).1 hdist with ⟨f, hf, hd⟩
      rw [hnoq i f d hf hd] at hcle
      exact Bool.false_ne_true hcle
  · intro i d hres
    subst hres
    obtain ⟨_, hdist, hcle, _, _⟩ := hinv
    exact ⟨hcle, (distAt_eq_some s a fl i d).1 hdist⟩

/-- C4 witness: a two-candidate list where only the first candidate is within
the threshold; `find` returns it with its distance. -/
theorem find_respects_threshold_witness :
    (((∀ (j : ℕ) (f : FeatureVec) (dj : JsNum),
          ([[("g", [0])], [("g", [1])]] : List FeatureVec)[j]? = some f →
          distance sqrtId [("g", [0])] (some f) = .value dj →
          jsLe dj (.num (3 / 40)) = false) → (some (0, JsNum.num 0) : Option (ℕ × JsNum)) = none)
      ∧ (∀ (i : ℕ) (d : JsNum), (some (0, JsNum.num 0) : Option (ℕ × JsNum)) = some (i, d) →
          jsLe d (.num (3 / 40)) = true ∧
          ∃ f, ([[("g", [0])], [("g", [1])]] : List FeatureVec)[i]? = some f ∧
            distance sqrtId [("g", [0])] (some f) = .value d)) :=
  find_respects_threshold sqrtId [("g", [0])] [[("g", [0])], [("g", [1])]] (3 / 40)
    (some (0, JsNum.num 0))
    (by norm_num [find, findLoop, findStep, distance, distValues, groupDist, sumSquares,
      sumSqAux, diffAt, lookupKey, jsSqrt, jsAdd, jsMul, jsDiv, jsLe, jsLt, sqrtId])

/-- C5: when `find` returns the candidate at position `i`, every earlier
position either fails the threshold or has a strictly larger distance — equal
minimal distances resolve to the first position in iteration order. -/
theorem find_tie_breaks_to_first (s : ℚ → ℚ) (a : FeatureVec) (fl : List FeatureVec) (c : ℚ)
    (i : ℕ) (d : JsNum) (h : find s a fl c = .ok (some (i, d))) :
    ∀ (j : ℕ) (f : FeatureVec) (dj : JsNum), j < i → fl[j]? = some f →
      distance s a (some f) = .value dj →
      jsLe dj (.num c) = true → jsLe dj d = false := by
  have hinv : FindInv s a c fl fl.length (some (i, d)) :=
    findLoop_inv s a c fl fl 0 none (some (i, d)) rfl
      (fun j hj => absurd hj (Nat.not_lt_zero j)) h
  obtain ⟨_, _, _, hfirst, _⟩ := hinv
  intro j f dj hj hf hd hq
  exact hfirst j hj dj ((distAt_eq_some s a fl j dj).2 ⟨f, hf, hd⟩) hq

/-- C5 witness: candidates 1 and 2 tie at distance `0` within the threshold
and `find` returns position 1; instantiating the theorem at the earlier
qualifying position 0 (distance `1/400`) yields its guarantee, the closed
fact that `1/400` is not below-or-equal the winning distance `0`. -/
theorem find_tie_breaks_to_first_witness :
    jsLe (JsNum.num (1 / 400)) (JsNum.num 0) = false :=
  find_tie_breaks_to_first sqrtId [("g", [0])]
    [[("g", [1 / 20])], [("g", [0])], [("g", [0])]] (3 / 40) 1 (JsNum.num 0)
    (by norm_num [find, findLoop, findStep, distance, distValues, groupDist, sumSquares,
      sumSqAux, diffAt, lookupKey, jsSqrt, jsAdd, jsMul, jsDiv, jsLe, jsLt, sqrtId])
    0 [("g", [1 / 20])] (JsNum.num (1 / 400)) (by omega) rfl
    (by norm_num [distance, distValues, groupDist, sumSquares, sumSqAux, diffAt, lookupKey,
      jsSqrt, jsAdd, jsMul, jsDiv, sqrtId])
    (by norm_num [jsLe])

/-- C10: `distance` applied to a null/undefined argument returns `undefined`
(neither throwing nor returning a number), and `FaceLandmark.compare` with a
falsy face argument likewise returns `undefined`. -/
theorem distance_and_compare_on_falsy (s : ℚ → ℚ) (a : FeatureVec) :
    distance s a none = .undef ∧ compareFace s a none = none :=
  ⟨rfl, rfl⟩

/-- A raw detector keypoint, with finite coordinates. -/
structure RawPoint where
  x : ℚ
  y : ℚ
  z : ℚ
  deriving DecidableEq, Repr

/-- The fields of the detected face bounding box used by normalization. -/
structure Box where
  xMin : ℚ
  yMin : ℚ
  width : ℚ
  height : ℚ
  deriving DecidableEq, Repr

/-- `this.points.getMin('z')`: `Math.min(...)` over the z coordinates; the
empty spread gives `Infinity`. -/
def getMinZ : List RawPoint → JsNum
  | [] => .inf
  | p :: rest => .num (rest.foldl (fun m q => min m q.z) p.z)

/-- `this.points.getMax('z')`: `Math.max(...)` over the z coordinates; the
empty spread gives `-Infinity`. -/
def getMaxZ : List RawPoint → JsNum
  | [] => .neginf
  | p :: rest => .num (rest.foldl (fun m q => max m q.z) p.z)

/-- `Point.normalize` (src/face.js lines 333-367) on one point when all six
arguments are defined and non-null: in argument order, each axis is first
shifted by its minimum and then multiplied by its scale. -/
def normPoint (xMin yMin zMin xScale yScale zScale : JsNum) (p : RawPoint) :
    JsNum × JsNum × JsNum :=
  (jsMul (jsSub (.num p.x) xMin) xScale,
   jsMul (jsSub (.num p.y) yMin) yScale,
   jsMul (jsSub (.num p.z) zMin) zScale)

/-- The coordinate rewrite performed by the `FaceLandmark` constructor
(src/face.js lines 137-157): the argument object is evaluated first from the
raw points and box (`scale` is the class field `1`, so
`zScale = 1 / Math.abs(zMax - zMin)` with `zMax`/`zMin` over all keypoints),
then every point is rewritten by `Point.normalize`. -/
def landmarkNormalize (box : Box) (ps : List RawPoint) : List (JsNum × JsNum × JsNum) :=
  ps.map (normPoint (.num box.xMin) (.num box.yMin) (getMinZ ps)
    (jsDiv (.num 1) (.num box.width)) (jsDiv (.num 1) (.num box.height))
    (jsDiv (.num 1) (jsAbs (jsSub (getMaxZ ps) (getMinZ ps)))))

/-- C2 (code evaluation at the failing input): on a landmark whose keypoints
all share the z value `0` (unit box at the origin), the constructor computes
a z-scale of `Infinity` — not the neutral scale `1` the spec mandates — and
every normalized z coordinate is `NaN`. -/
theorem landmarkNormalize_flat_depth_gives_nan :
    jsDiv (.num 1)
        (jsAbs (jsSub (getMaxZ [⟨0, 0, 0⟩, ⟨1, 1, 0⟩]) (getMinZ [⟨0, 0, 0⟩, ⟨1, 1, 0⟩]))) =
      .inf
    ∧ landmarkNormalize ⟨0, 0, 1, 1⟩ [⟨0, 0, 0⟩, ⟨1, 1, 0⟩] =
      [(.num 0, .num 0, .nan), (.num 1, .num 1, .nan)] := by
  constructor <;>
    norm_num [landmarkNormalize, normPoint, getMinZ, getMaxZ, jsDiv, jsAbs, jsSub, jsMul]

/-- One slot of the shared `work.items` store: raw image bytes (an object with
`type: 'Buffer'` and truthy `data`, identified here by an image id), a cached
feature vector, the `null` no-face sentinel, or an absent/undefined slot. -/
inductive Slot where
  | raw (img : ℕ)
  | feature (f : FeatureVec)
  | noface
  | absent
  deriving DecidableEq, Repr

/-- A message the worker sends to the host: a cache `update` for one slot, or
the terminal `done` carrying the work (its item store and probe feature) and
the match result. -/
inductive Msg where
  | update (index : ℕ) (data : Option FeatureVec)
  | done (items : List Slot) (feature : FeatureVec) (matched : Option (ℕ × JsNum))
  deriving DecidableEq, Repr

/-- Whether a message is the terminal `done` event. -/
def Msg.isDone : Msg → Bool
  | .done _ _ _ => true
  | .update _ _ => false

/-- What one call to `getFaceFeatures(items, index)` returns and does: its
return value, the item store afterwards, the messages it sent, and the
indices at which it invoked the detector. -/
structure FetchOut where
  res : Option FeatureVec
  items : List Slot
  msgs : List Msg
  calls : List ℕ
  deriving DecidableEq, Repr

/-- `getFaceFeatures(items, index)` of the face-ng worker (src/unnamed/part_000
lines 207-226).  A falsy slot (null, undefined, out of range) returns
`undefined`; a raw-buffer slot invokes the detector pipeline (`det img` is the
first detected face's feature vector, if any), overwrites the slot with the
result or the `null` sentinel and emits one `update`; any other slot is a
cache hit returned as is. -/
def getFaceFeatures (det : ℕ → Option FeatureVec) (items : List Slot) (index : ℕ) :
    FetchOut :=
  match items[index]? with
  | none => ⟨none, items, [], []⟩
  | some .absent => ⟨none, items, [], []⟩
  | some .noface => ⟨none, items, [], []⟩
  | some (.feature f) => ⟨some f, items, [], []⟩
  | some (.raw img) =>
      match det img with
      | some f => ⟨some f, items.set index (.feature f), [.update index (some f)], [index]⟩
      | none => ⟨none, items.set index .noface, [.update index none], [index]⟩

/-- The transition a processed slot undergoes: a raw slot becomes the computed
feature or the no-face sentinel; every other slot is left as it is. -/
def slotStep (det : ℕ → Option FeatureVec) : Slot → Slot
  | .raw img =>
      match det img with
      | some f => .feature f
      | none => .noface
  | sl => sl

/-- State carried by the scan loop of `verify`: the item store, the collected
candidate features with their absolute indices, the messages sent, the
detector call sites, and the value of `stopped` observed when the loop
exited. -/
structure LoopState where
  items : List Slot
  features : List FeatureVec
  indices : List ℕ
  msgs : List Msg
  calls : List ℕ
  stoppedNow : Bool
  deriving DecidableEq, Repr

/-- One body run of the scan loop at index `current`: resolve the feature
through the cache, collect it (and its absolute index) when truthy, and
accumulate the side effects. -/
def stepState (det : ℕ → Option FeatureVec) (current : ℕ) (st : LoopState) : LoopState :=
  let r := getFaceFeatures det st.items current
  { items := r.items
    features := st.features ++ (match r.res with | some f => [f] | none => [])
    indices := st.indices ++ (match r.res with | some _ => [current] | none => [])
    msgs := st.msgs ++ r.msgs
    calls := st.calls ++ r.calls
    stoppedNow := st.stoppedNow }

/-- The `while (current <= end)` loop of `verify` (src/unnamed/part_000 lines
166-177), with fuel `end + 1 - current`.  `stopSig i` is the value of the
module-level `stopped` flag as observed by the check at `current = i` (the
flag is raised asynchronously by a `stop` message during an await).  When the
loop exhausts the range, the following `!stopped` read is a fresh observation
at `current = end + 1`; when it exits through `break`, no await separates the
break from that read, so it sees the same raised flag. -/
def scanLoop (det : ℕ → Option FeatureVec) (stopSig : ℕ → Bool) :
    ℕ → ℕ → LoopState → LoopState
  | 0, current, st => { st with stoppedNow := stopSig current }
  | fuel + 1, current, st =>
      if stopSig current then { st with stoppedNow := true }
      else scanLoop det stopSig fuel (current + 1) (stepState det current st)

/-- `FaceFeatures.from(data)` copies every entry of the plain-object feature
map into a fresh `FaceFeatures` with `add`; the values are plain arrays (not
`Points`), so they are stored unchanged. -/
def featuresFrom (data : FeatureVec) : FeatureVec := data

/-- What one `verify` invocation produces: the item store at the time the
`done` event is sent, all messages sent (updates in order, then the `done`),
the `matched` payload of the `done`, the error caught and logged by the
`try`/`catch` (if any), and the detector call sites. -/
structure VerifyOut where
  items : List Slot
  msgs : List Msg
  matched : Option (ℕ × JsNum)
  caught : Option JsErr
  calls : List ℕ
  deriving DecidableEq, Repr

/-- The tail of `verify` after the scan loop: when the flag was not observed
raised and candidates exist, run `find`; a caught error leaves `matched` at
`null`; the one `done` event is always sent, carrying the (mutated) items,
the untouched probe feature and the match result with confidence
`1 - distance`. -/
def verifyOut (st : LoopState) (feature : FeatureVec)
    (found : Except JsErr (Option (ℕ × JsNum))) : VerifyOut :=
  match found with
  | .error e =>
      ⟨st.items, st.msgs ++ [.done st.items feature none], none, some e, st.calls⟩
  | .ok none =>
      ⟨st.items, st.msgs ++ [.done st.items feature none], none, none, st.calls⟩
  | .ok (some (m, conf)) =>
      ⟨st.items,
       st.msgs ++ [.done st.items feature (some (st.indices.getD m 0, jsSub (.num 1) conf))],
       some (st.indices.getD m 0, jsSub (.num 1) conf), none, st.calls⟩

/-- `verify(work, start, end)` of the face-ng worker (src/unnamed/part_000
lines 156-194): scan the inclusive range caching features, then (unless the
stop flag was observed or no candidate was collected) search for the best
match at the default threshold `0.075`, and send the single `done` event. -/
def verify (det : ℕ → Option FeatureVec) (stopSig : ℕ → Bool) (s : ℚ → ℚ)
    (items : List Slot) (feature : FeatureVec) (start endIdx : ℕ) : VerifyOut :=
  let st := scanLoop det stopSig (endIdx + 1 - start) start ⟨items, [], [], [], [], false⟩
  verifyOut st feature
    (if st.stoppedNow = false ∧ st.features ≠ [] then
      find s (featuresFrom feature) st.features (3 / 40)
    else .ok none)

lemma getFaceFeatures_cachehit (det : ℕ → Option FeatureVec) (items : List Slot) (index : ℕ)
    (h : ∀ img, items[index]? ≠ some (.raw img)) :
    (getFaceFeatures det items index).items = items ∧
    (getFaceFeatures det items index).msgs = [] ∧
    (getFaceFeatures det items index).calls = [] := by
  rcases hs : items[index]? with _ | sl
  · simp [getFaceFeatures, hs]
  · cases sl with
    | raw img => exact absurd hs (h img)
    | feature f => simp [getFaceFeatures, hs]
    | noface => simp [getFaceFeatures, hs]
    | absent => simp [getFaceFeatures, hs]

lemma getFaceFeatures_raw (det : ℕ → Option FeatureVec) (items : List Slot) (index img : ℕ)
    (h : items[index]? = some (.raw img)) :
    getFaceFeatures det items index =
      ⟨det img, items.set index (slotStep det (.raw img)),
        [.update index (det img)], [index]⟩ := by
  rcases hd : det img with _ | f <;> simp [getFaceFeatures, h, slotStep, hd]

lemma getFaceFeatures_items_ne (det : ℕ → Option FeatureVec) (items : List Slot)
    (index j : ℕ) (hj : j ≠ index) :
    (getFaceFeatures det items index).items[j]? = items[j]? := by
  rcases hs : items[index]? with _ | sl
  · simp [getFaceFeatures, hs]
  · cases sl with
    | raw img =>
        rcases hd : det img with _ | f <;>
          simp [getFaceFeatures, hs, hd, List.getElem?_set_ne (Ne.symm hj)]
    | feature f => simp [getFaceFeatures, hs]
    | noface => simp [getFaceFeatures, hs]
    | absent => simp [getFaceFeatures, hs]

lemma getFaceFeatures_items_self (det : ℕ → Option FeatureVec) (items : List Slot)
    (index : ℕ) :
    (getFaceFeatures det items index).items[index]? =
      items[index]?.map (slotStep det) := by
  rcases hs : items[index]? with _ | sl
  · simp [getFaceFeatures, hs]
  · have hlt : index < items.length := (List.getElem?_eq_some.1 hs).1
    cases sl with
    | raw img =>
        rcases hd : det img with _ | f <;>
          simp [getFaceFeatures, hs, hd, slotStep, List.getElem?_set_eq_of_lt _ hlt]
    | feature f => simp [getFaceFeatures, hs, slotStep]
    | noface => simp [getFaceFeatures, hs, slotStep]
    | absent => simp [getFaceFeatures, hs, slotStep]

lemma getFaceFeatures_msgs_update (det : ℕ → Option FeatureVec) (items : List Slot)
    (index : ℕ) :
    ∀ m ∈ (getFaceFeatures det items index).msgs, ∃ dat, m = Msg.update index dat := by
  rcases hs : items[index]? with _ | sl
  · simp [getFaceFeatures, hs]
  · cases sl with
    | raw img =>
        rcases hd : det img with _ | f <;> simp [getFaceFeatures, hs, hd]
    | feature f => simp [getFaceFeatures, hs]
    | noface => simp [getFaceFeatures, hs]
    | absent => simp [getFaceFeatures, hs]

lemma getFaceFeatures_calls_eq (det : ℕ → Option FeatureVec) (items : List Slot)
    (index : ℕ) :
    ∀ i ∈ (getFaceFeatures det items index).calls, i = index := by
  rcases hs : items[index]? with _ | sl
  · simp [getFaceFeatures, hs]
  · cases sl with
    | raw img =>
        rcases hd : det img with _ | f <;> simp [getFaceFeatures, hs, hd]
    | feature f => simp [getFaceFeatures, hs]
    | noface => simp [getFaceFeatures, hs]
    | absent => simp [getFaceFeatures, hs]

lemma stepState_items (det : ℕ → Option FeatureVec) (current : ℕ) (st : LoopState) :
    (stepState det current st).items = (getFaceFeatures det st.items current).items := rfl

lemma stepState_msgs (det : ℕ → Option FeatureVec) (current : ℕ) (st : LoopState) :
    (stepState det current st).msgs = st.msgs ++ (getFaceFeatures det st.items current).msgs :=
  rfl

lemma stepState_calls (det : ℕ → Option FeatureVec) (current : ℕ) (st : LoopState) :
    (stepState det current st).calls =
      st.calls ++ (getFaceFeatures det st.items current).calls := rfl

lemma scanLoop_items_changed (det : ℕ → Option FeatureVec) (stopSig : ℕ → Bool) :
    ∀ (fuel current : ℕ) (st : LoopState) (j : ℕ),
      (scanLoop det stopSig fuel current st).items[j]? ≠ st.items[j]? →
      current ≤ j ∧ j < current + fuel ∧ ∃ img, st.items[j]? = some (.raw img) := by
  intro fuel
  induction fuel with
  | zero => intro current st j h; exact absurd rfl h
  | succ fuel ih =>
      intro current st j h
      by_cases hstop : stopSig current = true
      · rw [scanLoop, if_pos hstop] at h
        exact absurd rfl h
      · rw [scanLoop, if_neg hstop] at h
        by_cases hch : (scanLoop det stopSig fuel (current + 1)
            (stepState det current st)).items[j]? = (stepState det current st).items[j]?
        · rw [hch, stepState_items] at h
          have hj : j = current := by
            by_contra hne
            exact h (getFaceFeatures_items_ne det st.items current j hne)
          subst hj
          rw [getFaceFeatures_items_self] at h
          rcases hs : st.items[j]? with _ | sl
          · exact absurd rfl (hs ▸ h)
          · cases sl with
            | raw img => exact ⟨le_refl _, by omega, img, by simp [hs]⟩
            | feature f => exact absurd rfl (hs ▸ h)
            | noface => exact absurd rfl (hs ▸ h)
            | absent => exact absurd rfl (hs ▸ h)
        · obtain ⟨h1, h2, img, himg⟩ := ih (current + 1) (stepState det current st) j hch
          rw [stepState_items,
            getFaceFeatures_items_ne det st.items current j (by omega)] at himg
          exact ⟨by omega, by omega, img, himg⟩

lemma scanLoop_items_changed_visited (det : ℕ → Option FeatureVec) (stopSig : ℕ → Bool) :
    ∀ (fuel current : ℕ) (st : LoopState) (j : ℕ),
      (scanLoop det stopSig fuel current st).items[j]? ≠ st.items[j]? →
      current ≤ j ∧ j < current + fuel ∧ (∃ img, st.items[j]? = some (.raw img)) ∧
        ∀ m, current ≤ m → m ≤ j → stopSig m = false := by
  intro fuel
  induction fuel with
  | zero => intro current st j h; exact absurd rfl h
  | succ fuel ih =>
      intro current st j h
      by_cases hstop : stopSig current = true
      · rw [scanLoop, if_pos hstop] at h
        exact absurd rfl h
      · have hsc : stopSig current = false := by
          rcases hx : stopSig current with _ | _
          · rfl
          · exact absurd hx hstop
        rw [scanLoop, if_neg hstop] at h
        by_cases hch : (scanLoop det stopSig fuel (current + 1)
            (stepState det current st)).items[j]? = (stepState det current st).items[j]?
        · rw [hch, stepState_items] at h
          have hj : j = current := by
            by_contra hne
            exact h (getFaceFeatures_items_ne det st.items current j hne)
          rw [hj, getFaceFeatures_items_self] at h
          refine ⟨by omega, by omega, ?_, ?_⟩
          · rw [hj]
            rcases hs : st.items[current]? with _ | sl
            · exact absurd rfl (hs ▸ h)
            · cases sl with
              | raw img => exact ⟨img, by simp [hs]⟩
              | feature f => exact absurd rfl (hs ▸ h)
              | noface => exact absurd rfl (hs ▸ h)
              | absent => exact absurd rfl (hs ▸ h)
          · intro m hm1 hm2
            have hmc : m = current := by omega
            rw [hmc]
            exact hsc
        · obtain ⟨h1, h2, ⟨img, himg⟩, hvis⟩ :=
            ih (current + 1) (stepState det current st) j hch
          rw [stepState_items,
            getFaceFeatures_items_ne det st.items current j (by omega)] at himg
          refine ⟨by omega, by omega, ⟨img, himg⟩, ?_⟩
          intro m hm1 hm2
          rcases Nat.eq_or_lt_of_le hm1 with hm | hm
          · rw [← hm]
            exact hsc
          · exact hvis m (by omega) hm2

lemma scanLoop_items_lt (det : ℕ → Option FeatureVec) (stopSig : ℕ → Bool) :
    ∀ (fuel current : ℕ) (st : LoopState) (j : ℕ), j < current →
      (scanLoop det stopSig fuel current st).items[j]? = st.items[j]? := by
  intro fuel
  induction fuel with
  | zero => intro current st j hj; rfl
  | succ fuel ih =>
      intro current st j hj
      by_cases hstop : stopSig current = true
      · rw [scanLoop, if_pos hstop]
      · rw [scanLoop, if_neg hstop, ih (current + 1) _ j (by omega), stepState_items,
          getFaceFeatures_items_ne det st.items current j (by omega)]

lemma scanLoop_msgs_updates (det : ℕ → Option FeatureVec) (stopSig : ℕ → Bool) :
    ∀ (fuel current : ℕ) (st : LoopState),
      ∃ t, (scanLoop det stopSig fuel current st).msgs = st.msgs ++ t ∧
        ∀ m ∈ t, ∃ i dat, m = Msg.update i dat ∧ current ≤ i ∧ i < current + fuel := by
  intro fuel
  induction fuel with
  | zero => intro current st; exact ⟨[], by simp [scanLoop], by simp⟩
  | succ fuel ih =>
      intro current st
      by_cases hstop : stopSig current = true
      · exact ⟨[], by rw [scanLoop, if_pos hstop]; simp, by simp⟩
      · obtain ⟨t, ht, hall⟩ := ih (current + 1) (stepState det current st)
        refine ⟨(getFaceFeatures det st.items current).msgs ++ t, ?_, ?_⟩
        · rw [scanLoop, if_neg hstop, ht, stepState_msgs, List.append_assoc]
        · intro m hm
          rcases List.mem_append.1 hm with hm1 | hm2
          · obtain ⟨dat, hdat⟩ := getFaceFeatures_msgs_update det st.items current m hm1
            exact ⟨current, dat, hdat, le_refl _, by omega⟩
          · obtain ⟨i, dat, hdat, hi1, hi2⟩ := hall m hm2
            exact ⟨i, dat, hdat, by omega, by omega⟩

lemma scanLoop_calls_bounded (det : ℕ → Option FeatureVec) (stopSig : ℕ → Bool) :
    ∀ (fuel current : ℕ) (st : LoopState),
      ∃ u, (scanLoop det stopSig fuel current st).calls = st.calls ++ u ∧
        ∀ i ∈ u, current ≤ i ∧ i < current + fuel := by
  intro fuel
  induction fuel with
  | zero => intro current st; exact ⟨[], by simp [scanLoop], by simp⟩
  | succ fuel ih =>
      intro current st
      by_cases hstop : stopSig current = true
      · exact ⟨[], by rw [scanLoop, if_pos hstop]; simp, by simp⟩
      · obtain ⟨u, hu, hall⟩ := ih (current + 1) (stepState det current st)
        refine ⟨(getFaceFeatures det st.items current).calls ++ u, ?_, ?_⟩
        · rw [scanLoop, if_neg hstop, hu, stepState_calls, List.append_assoc]
        · intro i hi
          rcases List.mem_append.1 hi with hi1 | hi2
          · rw [getFaceFeatures_calls_eq det st.items current i hi1]
            exact ⟨le_refl _, by omega⟩
          · obtain ⟨hi1, hi2⟩ := hall i hi2
            exact ⟨by omega, by omega⟩

lemma scanLoop_nostop_succ (det : ℕ → Option FeatureVec) (fuel current : ℕ)
    (st : LoopState) :
    scanLoop det (fun _ => false) (fuel + 1) current st =
      scanLoop det (fun _ => false) fuel (current + 1) (stepState det current st) := by
  rw [scanLoop, if_neg (by simp)]

lemma scanLoop_nostop_stoppedNow (det : ℕ → Option FeatureVec) :
    ∀ (fuel current : ℕ) (st : LoopState),
      (scanLoop det (fun _ => false) fuel current st).stoppedNow = false := by
  intro fuel
  induction fuel with
  | zero => intro current st; rfl
  | succ fuel ih =>
      intro current st
      rw [scanLoop_nostop_succ]
      exact ih _ _

lemma scanLoop_nostop_items (det : ℕ → Option FeatureVec) :
    ∀ (fuel current : ℕ) (st : LoopState) (j : ℕ), current ≤ j → j < current + fuel →
      (scanLoop det (fun _ => false) fuel current st).items[j]? =
        st.items[j]?.map (slotStep det) := by
  intro fuel
  induction fuel with
  | zero => intro current st j h1 h2; exact absurd h2 (by omega)
  | succ fuel ih =>
      intro current st j h1 h2
      rw [scanLoop_nostop_succ]
      rcases Nat.eq_or_lt_of_le h1 with hj | hj
      · rw [scanLoop_items_lt det _ fuel (current + 1) _ j (by omega), stepState_items,
          ← hj, getFaceFeatures_items_self]
      · rw [ih (current + 1) _ j (by omega) (by omega), stepState_items,
          getFaceFeatures_items_ne det st.items current j (by omega)]

/-- The cache updates an uninterrupted scan over `fuel` indices from `current`
emits, described against the item store at entry: one `update` carrying the
detector result for each raw slot, in index order. -/
def rangeUpdates (det : ℕ → Option FeatureVec) (items : List Slot) : ℕ → ℕ → List Msg
  | _, 0 => []
  | current, fuel + 1 =>
      (match items[current]? with
        | some (.raw img) => [Msg.update current (det img)]
        | _ => []) ++ rangeUpdates det items (current + 1) fuel

lemma rangeUpdates_congr (det : ℕ → Option FeatureVec) :
    ∀ (fuel current : ℕ) (a b : List Slot),
      (∀ j, current ≤ j → j < current + fuel → a[j]? = b[j]?) →
      rangeUpdates det a current fuel = rangeUpdates det b current fuel := by
  intro fuel
  induction fuel with
  | zero => intro current a b h; rfl
  | succ fuel ih =>
      intro current a b h
      rw [rangeUpdates, rangeUpdates, h current (le_refl _) (by omega),
        ih (current + 1) a b fun j h1 h2 => h j (by omega) (by omega)]

lemma mem_rangeUpdates (det : ℕ → Option FeatureVec) (items : List Slot) :
    ∀ (fuel current i : ℕ) (dat : Option FeatureVec),
      Msg.update i dat ∈ rangeUpdates det items current fuel ↔
        (current ≤ i ∧ i < current + fuel ∧
          ∃ img, items[i]? = some (.raw img) ∧ dat = det img) := by
  intro fuel
  induction fuel with
  | zero =>
      intro current i dat
      rw [rangeUpdates]
      simp only [List.not_mem_nil, false_iff]
      rintro ⟨h1, h2, -⟩
      omega
  | succ fuel ih =>
      intro current i dat
      rw [rangeUpdates, List.mem_append, ih (current + 1) i dat]
      constructor
      · rintro (hhead | ⟨h1, h2, img, himg, hdat⟩)
        · rcases hs : items[current]? with _ | sl
          · rw [hs] at hhead
            simp at hhead
          · rw [hs] at hhead
            cases sl with
            | raw img =>
                simp only [List.mem_singleton, Msg.update.injEq] at hhead
                obtain ⟨hi, hdat⟩ := hhead
                subst hi
                exact ⟨le_refl _, by omega, img, hs, hdat⟩
            | feature f => simp at hhead
            | noface => simp at hhead
            | absent => simp at hhead
        · exact ⟨by omega, by omega, img, himg, hdat⟩
      · rintro ⟨h1, h2, img, himg, hdat⟩
        by_cases hic : i = current
        · left
          subst hic
          rw [himg]
          simp [hdat]
        · right
          exact ⟨by omega, by omega, img, himg, hdat⟩

lemma scanLoop_nostop_msgs (det : ℕ → Option FeatureVec) :
    ∀ (fuel current : ℕ) (st : LoopState),
      (scanLoop det (fun _ => false) fuel current st).msgs =
        st.msgs ++ rangeUpdates det st.items current fuel := by
  intro fuel
  induction fuel with
  | zero => intro current st; simp [scanLoop, rangeUpdates]
  | succ fuel ih =>
      intro current st
      rw [scanLoop_nostop_succ, ih (current + 1), stepState_msgs, rangeUpdates,
        List.append_assoc]
      congr 1
      congr 1
      · rcases hs : st.items[current]? with _ | sl
        · simp [getFaceFeatures, hs]
        · cases sl with
          | raw img =>
              rw [getFaceFeatures_raw det st.items current img hs]
          | feature f => simp [getFaceFeatures, hs]
          | noface => simp [getFaceFeatures, hs]
          | absent => simp [getFaceFeatures, hs]
      · apply rangeUpdates_congr
        intro j h1 h2
        rw [stepState_items, getFaceFeatures_items_ne det st.items current j (by omega)]

lemma scanLoop_stop_cut (det : ℕ → Option FeatureVec) (stopSig : ℕ → Bool) :
    ∀ (fuel current k : ℕ) (st : LoopState), current ≤ k → k < current + fuel →
      stopSig k = true → (∀ j, current ≤ j → j < k → stopSig j = false) →
      scanLoop det stopSig fuel current st =
        { scanLoop det (fun _ => false) (k - current) current st with stoppedNow := true } := by
  intro fuel
  induction fuel with
  | zero => intro current k st h1 h2 _ _; exact absurd h2 (by omega)
  | succ fuel ih =>
      intro current k st h1 h2 hk hbefore
      rcases Nat.eq_or_lt_of_le h1 with hck | hck
      · rw [scanLoop, if_pos (by rw [← hck] at hk; exact hk), ← hck, Nat.sub_self]
        rfl
      · have hsc : stopSig current = false := hbefore current (le_refl _) hck
        rw [scanLoop, if_neg (by rw [hsc]; simp),
          ih (current + 1) k _ (by omega) (by omega) hk
            (fun j hj1 hj2 => hbefore j (by omega) hj2)]
        have hkc : k - current = (k - (current + 1)) + 1 := by omega
        rw [hkc, scanLoop_nostop_succ]

lemma getLast?_append_singleton {α : Type} (l : List α) (a : α) :
    (l ++ [a]).getLast? = some a :=
  List.getLast?_concat _

lemma verifyOut_items (st : LoopState) (feature : FeatureVec)
    (found : Except JsErr (Option (ℕ × JsNum))) :
    (verifyOut st feature found).items = st.items := by
  rcases found with e | o
  · rfl
  · rcases o with _ | ⟨m, conf⟩ <;> rfl

lemma verifyOut_calls (st : LoopState) (feature : FeatureVec)
    (found : Except JsErr (Option (ℕ × JsNum))) :
    (verifyOut st feature found).calls = st.calls := by
  rcases found with e | o
  · rfl
  · rcases o with _ | ⟨m, conf⟩ <;> rfl

lemma verifyOut_msgs (st : LoopState) (feature : FeatureVec)
    (found : Except JsErr (Option (ℕ × JsNum))) :
    (verifyOut st feature found).msgs =
      st.msgs ++ [.done st.items feature (verifyOut st feature found).matched] := by
  rcases found with e | o
  · rfl
  · rcases o with _ | ⟨m, conf⟩ <;> rfl

lemma verifyOut_caught (st : LoopState) (feature : FeatureVec)
    (found : Except JsErr (Option (ℕ × JsNum))) :
    (verifyOut st feature found).caught ≠ none →
      (verifyOut st feature found).matched = none := by
  rcases found with e | o
  · intro _; rfl
  · rcases o with _ | ⟨m, conf⟩
    · intro _; rfl
    · intro hc; exact absurd rfl hc

lemma verifyOut_done_props (st : LoopState) (feature : FeatureVec)
    (found : Except JsErr (Option (ℕ × JsNum)))
    (hupd : ∀ m ∈ st.msgs, Msg.isDone m = false) :
    ((verifyOut st feature found).msgs.filter Msg.isDone).length = 1 ∧
    (verifyOut st feature found).msgs.getLast? =
      some (.done (verifyOut st feature found).items feature
        (verifyOut st feature found).matched) ∧
    ((verifyOut st feature found).caught ≠ none →
      (verifyOut st feature found).matched = none) := by
  refine ⟨?_, ?_, verifyOut_caught st feature found⟩
  · rw [verifyOut_msgs, List.filter_append]
    have hnil : st.msgs.filter Msg.isDone = [] := by
      rw [List.filter_eq_nil_iff]
      intro m hm
      rw [hupd m hm]
      simp
    rw [hnil]
    rfl
  · rw [verifyOut_items, verifyOut_msgs, getLast?_append_singleton]

lemma verify_stopped_out (det : ℕ → Option FeatureVec) (stopSig : ℕ → Bool) (s : ℚ → ℚ)
    (items : List Slot) (feature : FeatureVec) (start endIdx : ℕ)
    (hstopped : (scanLoop det stopSig (endIdx + 1 - start) start
      ⟨items, [], [], [], [], false⟩).stoppedNow = true) :
    verify det stopSig s items feature start endIdx =
      verifyOut (scanLoop det stopSig (endIdx + 1 - start) start
        ⟨items, [], [], [], [], false⟩) feature (.ok none) := by
  simp only [verify]
  rw [if_neg fun hcon => by rw [hstopped] at hcon; simp at hcon]

/-- C7: every scan terminates by sending exactly one `done` event, as its last
message, carrying the final item store, the probe feature and the match
payload; an error thrown during the scan loop or the best-match search
(including the shape-mismatch error) is caught and logged inside the scanner,
leaving `matched` null — no exception reaches the host. -/
theorem verify_single_done_no_propagation (det : ℕ → Option FeatureVec) (stopSig : ℕ → Bool)
    (s : ℚ → ℚ) (items : List Slot) (feature : FeatureVec) (start endIdx : ℕ) :
    (((verify det stopSig s items feature start endIdx).msgs.filter Msg.isDone).length = 1)
    ∧ (verify det stopSig s items feature start endIdx).msgs.getLast? =
        some (.done (verify det stopSig s items feature start endIdx).items feature
          (verify det stopSig s items feature start endIdx).matched)
    ∧ ((verify det stopSig s items feature start endIdx).caught ≠ none →
        (verify det stopSig s items feature start endIdx).matched = none) := by
  obtain ⟨t, ht, hall⟩ := scanLoop_msgs_updates det stopSig (endIdx + 1 - start) start
    ⟨items, [], [], [], [], false⟩
  simp only [verify]
  apply verifyOut_done_props
  intro m hm
  rw [ht] at hm
  rcases List.mem_append.1 hm with h1 | h2
  · simp at h1
  · obtain ⟨i, dat, rfl, -, -⟩ := hall m h2
    rfl

/-- C8: the only slots of `work.items` mutated by a scan are indices within
`[start, end]` that were visited — the loop reached them, every stop-flag
observation from `start` up to them reading false — and held raw image data;
every slot whose content differs at `done` time was such a slot, and the
`done` event carries the probe feature unchanged alongside the final items. -/
theorem verify_mutates_only_visited_raw (det : ℕ → Option FeatureVec) (stopSig : ℕ → Bool)
    (s : ℚ → ℚ) (items : List Slot) (feature : FeatureVec) (start endIdx : ℕ) :
    (∀ j : ℕ, (verify det stopSig s items feature start endIdx).items[j]? ≠ items[j]? →
      start ≤ j ∧ j ≤ endIdx ∧ (∃ img, items[j]? = some (.raw img)) ∧
        ∀ m, start ≤ m → m ≤ j → stopSig m = false)
    ∧ (verify det stopSig s items feature start endIdx).msgs.getLast? =
        some (.done (verify det stopSig s items feature start endIdx).items feature
          (verify det stopSig s items feature start endIdx).matched) := by
  constructor
  · intro j hj
    simp only [verify] at hj
    rw [verifyOut_items] at hj
    obtain ⟨h1, h2, ⟨img, himg⟩, hvis⟩ := scanLoop_items_changed_visited det stopSig
      (endIdx + 1 - start) start ⟨items, [], [], [], [], false⟩ j hj
    exact ⟨h1, by omega, ⟨img, himg⟩, hvis⟩
  · simp only [verify]
    rw [verifyOut_items, verifyOut_msgs, getLast?_append_singleton]

/-- C9: a cache-hit slot (an already computed feature vector, the no-face
sentinel, or an absent slot) triggers no detector call, no update message and
no item write; over an uninterrupted scan, update events are emitted exactly
for the visited indices whose slot held raw image bytes, each carrying that
slot's detector result. -/
theorem cache_hits_silent_updates_exact (det : ℕ → Option FeatureVec) (s : ℚ → ℚ)
    (items : List Slot) (index : ℕ) (feature : FeatureVec) (start endIdx : ℕ) :
    ((∀ img, items[index]? ≠ some (.raw img)) →
      (getFaceFeatures det items index).msgs = [] ∧
      (getFaceFeatures det items index).calls = [] ∧
      (getFaceFeatures det items index).items = items)
    ∧ (∀ (i : ℕ) (dat : Option FeatureVec),
        Msg.update i dat ∈ (verify det (fun _ => false) s items feature start endIdx).msgs ↔
          (start ≤ i ∧ i ≤ endIdx ∧ ∃ img, items[i]? = some (.raw img) ∧ dat = det img)) := by
  constructor
  · intro h
    obtain ⟨hi, hm, hc⟩ := getFaceFeatures_cachehit det items index h
    exact ⟨hm, hc, hi⟩
  · intro i dat
    simp only [verify]
    rw [verifyOut_msgs,
      scanLoop_nostop_msgs det (endIdx + 1 - start) start ⟨items, [], [], [], [], false⟩]
    constructor
    · intro hm
      rcases List.mem_append.1 hm with h1 | h2
      · rcases List.mem_append.1 h1 with h0 | hru
        · simp at h0
        · obtain ⟨hh1, hh2, img, himg, hdat⟩ :=
            (mem_rangeUpdates det items (endIdx + 1 - start) start i dat).1 hru
          exact ⟨hh1, by omega, img, himg, hdat⟩
      · simp at h2
    · rintro ⟨h1, h2, img, himg, hdat⟩
      apply List.mem_append.2
      left
      apply List.mem_append.2
      right
      exact (mem_rangeUpdates det items (endIdx + 1 - start) start i dat).2
        ⟨h1, by omega, img, himg, hdat⟩

/-- C6: when the cancellation flag is first observed raised at index `k` of
the range, no further index is processed — no detector call and no update
message occurs at or beyond `k`, and slots there keep their prior content —
the terminal `done` event carries `matched` null, and the features already
computed for indices before `k` remain cached in the item store. -/
theorem verify_cancellation (det : ℕ → Option FeatureVec) (stopSig : ℕ → Bool) (s : ℚ → ℚ)
    (items : List Slot) (feature : FeatureVec) (start endIdx k : ℕ)
    (hk1 : start ≤ k) (hk2 : k ≤ endIdx) (hstop : stopSig k = true)
    (hbefore : ∀ j, start ≤ j → j < k → stopSig j = false) :
    (verify det stopSig s items feature start endIdx).matched = none
    ∧ (verify det stopSig s items feature start endIdx).msgs.getLast? =
        some (.done (verify det stopSig s items feature start endIdx).items feature none)
    ∧ (∀ (i : ℕ) (dat : Option FeatureVec),
        Msg.update i dat ∈ (verify det stopSig s items feature start endIdx).msgs → i < k)
    ∧ (∀ i ∈ (verify det stopSig s items feature start endIdx).calls, i < k)
    ∧ (∀ j : ℕ, j < start ∨ k ≤ j →
        (verify det stopSig s items feature start endIdx).items[j]? = items[j]?)
    ∧ (∀ (j img : ℕ) (f : FeatureVec), start ≤ j → j < k →
        items[j]? = some (.raw img) → det img = some f →
        (verify det stopSig s items feature start endIdx).items[j]? = some (.feature f)) := by
  have hcut := scanLoop_stop_cut det stopSig (endIdx + 1 - start) start k
    ⟨items, [], [], [], [], false⟩ hk1 (by omega) hstop hbefore
  have hstopped : (scanLoop det stopSig (endIdx + 1 - start) start
      ⟨items, [], [], [], [], false⟩).stoppedNow = true := by
    rw [hcut]
  have hv := verify_stopped_out det stopSig s items feature start endIdx hstopped
  rw [hv, hcut]
  simp only [verifyOut]
  refine ⟨by trivial, ?_, ?_, ?_, ?_, ?_⟩
  · exact getLast?_append_singleton _ _
  · intro i dat hm
    rcases List.mem_append.1 hm with h1 | h2
    · rw [scanLoop_nostop_msgs det (k - start) start ⟨items, [], [], [], [], false⟩] at h1
      rcases List.mem_append.1 h1 with h0 | hru
      · simp at h0
      · obtain ⟨hh1, hh2, -⟩ := (mem_rangeUpdates det items (k - start) start i dat).1 hru
        omega
    · simp at h2
  · intro i hi
    obtain ⟨u, hu, hall⟩ := scanLoop_calls_bounded det (fun _ => false) (k - start) start
      ⟨items, [], [], [], [], false⟩
    rw [hu] at hi
    rcases List.mem_append.1 hi with h0 | h1
    · simp at h0
    · obtain ⟨hi1, hi2⟩ := hall i h1
      omega
  · intro j hj
    by_contra hne
    obtain ⟨h1, h2, -⟩ := scanLoop_items_changed det (fun _ => false) (k - start) start
      ⟨items, [], [], [], [], false⟩ j hne
    omega
  · intro j img f hj1 hj2 himg hdet
    rw [scanLoop_nostop_items det (k - start) start ⟨items, [], [], [], [], false⟩ j hj1
      (by omega)]
    show items[j]?.map (slotStep det) = _
    rw [himg]
    simp [slotStep, hdet]

/-- C6 witness: three raw slots, the flag raised from index 1 on; the scan
reports no match. -/
theorem verify_cancellation_witness :
    (verify (fun img => some [("g", [(img : ℚ)])]) (fun i => decide (1 ≤ i)) sqrtId
        [Slot.raw 5, Slot.raw 6, Slot.raw 7] [("g", [0])] 0 2).matched = none :=
  (verify_cancellation (fun img => some [("g", [(img : ℚ)])]) (fun i => decide (1 ≤ i))
    sqrtId [Slot.raw 5, Slot.raw 6, Slot.raw 7] [("g", [0])] 0 2 1
    (by decide) (by decide) (by decide)
    (fun j h1 h2 => by interval_cases j; rfl)).1

end FaceNg
